import Mathlib

/-!
Verification of the paged KV-cache append operation of flashinfer
(`python/flashinfer/page.py` and the scatter/addressing kernel it
dispatches to).

The Python file under verification is a thin wrapper: it validates the
layout token, unpacks the cache and forwards to a compiled kernel.
The addressing and scatter logic itself, together with the helpers
`_check_kv_layout` / `TensorLayout` / `_unpack_paged_kv_cache`, live
outside the provided sources, so those parts are modelled faithfully
from the specification (each such definition is marked
`Modelled from the spec:`).
-/

namespace FlashInfer

/-- Modelled from the spec: the `TensorLayout` enum of
`flashinfer.utils` (not under src/): exactly two axis-order
conventions, `NHD` (slot, head, dim) and `HND` (head, slot, dim). -/
inductive TensorLayout where
  | NHD : TensorLayout
  | HND : TensorLayout
deriving DecidableEq, Repr

/-- Modelled from the spec: the error kinds of §7 raised by the
append operation (the native kernel and the wrapper's layout check,
neither of which is under src/). -/
inductive AppendError where
  | InvalidLayout : AppendError
  | MalformedIndex : AppendError
  | CapacityExceeded : AppendError
  | IndexOutOfRange : AppendError
deriving DecidableEq, Repr

/-- Modelled from the spec: `_check_kv_layout` of `flashinfer.utils`
(not under src/): resolves the layout token, failing with
`InvalidLayout` when the token is neither `NHD` nor `HND`. -/
def checkKvLayout (s : String) : Except AppendError TensorLayout :=
  if s = "NHD" then Except.ok TensorLayout.NHD
  else if s = "HND" then Except.ok TensorLayout.HND
  else Except.error AppendError.InvalidLayout

/-- The input batch of an `append_paged_kv_cache` call: the ragged
append batch (`append_key`, `append_value`, `append_indptr`), the
flattened page table (`kv_indices`, `kv_indptr`, `kv_last_page_len`)
and the page size.  A ragged row is a `[num_kv_heads][head_dim]`
nested list of scalars. -/
structure Batch (α : Type) where
  page_size : Nat
  append_key : List (List (List α))
  append_value : List (List (List α))
  append_indptr : List Nat
  kv_indices : List Nat
  kv_indptr : List Nat
  kv_last_page_len : List Nat

variable {α : Type}

/-- Batch size: one `kv_last_page_len` entry per sequence. -/
def batchSize (b : Batch α) : Nat := b.kv_last_page_len.length

/-- `num_pages_i = kv_indptr[i+1] - kv_indptr[i]` (§3). -/
def numPagesOf (b : Batch α) (i : Nat) : Nat :=
  b.kv_indptr.getD (i + 1) 0 - b.kv_indptr.getD i 0

/-- `append_len_i = append_indptr[i+1] - append_indptr[i]` (§3). -/
def appendLenOf (b : Batch α) (i : Nat) : Nat :=
  b.append_indptr.getD (i + 1) 0 - b.append_indptr.getD i 0

/-- `cap_i = (num_pages_i - 1) * page_size + kv_last_page_len[i]` (§3). -/
def capOf (b : Batch α) (i : Nat) : Nat :=
  (numPagesOf b i - 1) * b.page_size + b.kv_last_page_len.getD i 0

/-- Modelled from the spec: `start_i = cap_i - append_len_i` (§4.3),
computed by the Cache Addressing Unit of the native kernel
(not under src/). -/
def startOf (b : Batch α) (i : Nat) : Nat :=
  capOf b i - appendLenOf b i

/-- Logical position of local appended row `j` of sequence `i`:
`pos = start_i + j` (§4.3). -/
def posOf (b : Batch α) (i j : Nat) : Nat := startOf b i + j

/-- `page_slot_index = pos / page_size` (§4.3). -/
def pageSlotIndex (b : Batch α) (i j : Nat) : Nat :=
  posOf b i j / b.page_size

/-- `in_page_offset = pos mod page_size` (§4.3). -/
def inPageOffset (b : Batch α) (i j : Nat) : Nat :=
  posOf b i j % b.page_size

/-- `physical_page = kv_indices[kv_indptr[i] + page_slot_index]` (§4.3). -/
def physicalPage (b : Batch α) (i j : Nat) : Nat :=
  b.kv_indices.getD (b.kv_indptr.getD i 0 + pageSlotIndex b i j) 0

/-- The `(physical_page, in_page_offset)` destination pair of local
row `j` of sequence `i`. -/
def destOf (b : Batch α) (i j : Nat) : Nat × Nat :=
  (physicalPage b i j, inPageOffset b i j)

/-- All destination pairs of one sequence, in row order. -/
def seqDests (b : Batch α) (i : Nat) : List (Nat × Nat) :=
  (List.range (appendLenOf b i)).map (destOf b i)

/-- All destination pairs of the whole batch. -/
def batchDests (b : Batch α) : List (Nat × Nat) :=
  (List.range (batchSize b)).flatMap (seqDests b)

/-- Boolean test that a list of naturals is non-decreasing. -/
def nondecB : List Nat → Bool
  | [] => true
  | [_] => true
  | a :: b :: rest => decide (a ≤ b) && nondecB (b :: rest)

/-- Boolean well-formedness of an indptr array (§3): length
`n + 1`, starts at 0, non-decreasing, terminal value equal to the
paired data length. -/
def indptrOkB (l : List Nat) (n total : Nat) : Bool :=
  decide (l.length = n + 1) && decide (l.getD 0 0 = 0) && nondecB l &&
    decide (l.getD n 0 = total)

/-- Boolean capacity check (§4.3): `append_len_i ≤ cap_i` for every
sequence. -/
def capOkB (b : Batch α) : Bool :=
  (List.range (batchSize b)).all fun i =>
    decide (appendLenOf b i ≤ capOf b i)

/-- Boolean defensive index check (§4.3): every computed
`page_slot_index` is below `num_pages_i`. -/
def idxOkB (b : Batch α) : Bool :=
  (List.range (batchSize b)).all fun i =>
    (List.range (appendLenOf b i)).all fun j =>
      decide (pageSlotIndex b i j < numPagesOf b i)

/-- §3 invariants of a valid batch: positive page size, well-formed
indptr arrays, matched ragged lengths, at least one page and enough
capacity per sequence, last-page occupancy within the page, and
sequence-exclusive (pairwise distinct) physical pages. -/
def ValidBatch (b : Batch α) : Prop :=
  0 < b.page_size ∧
  indptrOkB b.append_indptr (batchSize b) b.append_key.length = true ∧
  indptrOkB b.kv_indptr (batchSize b) b.kv_indices.length = true ∧
  b.append_value.length = b.append_key.length ∧
  (∀ i, i < batchSize b → 1 ≤ numPagesOf b i) ∧
  (∀ i, i < batchSize b → appendLenOf b i ≤ capOf b i) ∧
  (∀ i, i < batchSize b → b.kv_last_page_len.getD i 0 ≤ b.page_size) ∧
  b.kv_indices.Nodup

instance (b : Batch α) : Decidable (ValidBatch b) := by
  unfold ValidBatch; infer_instance

/-- A physical coordinate in a 4-D cache buffer. -/
abbrev Idx : Type := Nat × Nat × Nat × Nat

/-- A cache buffer: scalar content at each physical coordinate. -/
def Buffer (α : Type) : Type := Idx → α

/-- Physical coordinate of logical position (page, slot, head, dim)
under a layout: `NHD` stores `[page, slot, head, dim]`, `HND` stores
`[page, head, slot, dim]` (§3). -/
def physIdx (layout : TensorLayout) (p s h d : Nat) : Idx :=
  match layout with
  | TensorLayout.NHD => (p, s, h, d)
  | TensorLayout.HND => (p, h, s, d)

/-- Read a buffer through a layout convention at logical
(page, slot, head, dim). -/
def readLogical (layout : TensorLayout) (buf : Buffer α) (p s h d : Nat) : α :=
  buf (physIdx layout p s h d)

/-- Point update of a buffer. -/
def bufWrite (buf : Buffer α) (i : Idx) (v : α) : Buffer α :=
  fun j => if j = i then v else buf j

/-- Sequential elementwise scatter: apply the writes left to right. -/
def bulkWrite (buf : Buffer α) (ws : List (Idx × α)) : Buffer α :=
  ws.foldl (fun b w => bufWrite b w.1 w.2) buf

/-- Index of the ragged source row of local row `j` of sequence `i`:
`append_indptr[i] + j` (§4.4). -/
def rowIdx (b : Batch α) (i j : Nat) : Nat :=
  b.append_indptr.getD i 0 + j

/-- Ragged row `r` of a source array (`[num_kv_heads][head_dim]`). -/
def rowAt (src : List (List (List α))) (r : Nat) : List (List α) :=
  src.getD r []

/-- Scalar at head `h`, lane `d` of ragged row `r`. -/
def entryAt [Inhabited α] (src : List (List (List α))) (r h d : Nat) : α :=
  ((src.getD r []).getD h []).getD d default

/-- Modelled from the spec: the writes the Scatter-Append Engine
(native kernel, not under src/) emits for sequence `i` from one
source array: every scalar lane of every appended row, addressed per
§4.3/§4.4. -/
def seqWrites [Inhabited α] (layout : TensorLayout) (b : Batch α)
    (src : List (List (List α))) (i : Nat) : List (Idx × α) :=
  (List.range (appendLenOf b i)).flatMap fun j =>
    (List.range (rowAt src (rowIdx b i j)).length).flatMap fun h =>
      (List.range ((rowAt src (rowIdx b i j)).getD h []).length).map fun d =>
        (physIdx layout (physicalPage b i j) (inPageOffset b i j) h d,
         entryAt src (rowIdx b i j) h d)

/-- All writes of the batch from one source array. -/
def allWrites [Inhabited α] (layout : TensorLayout) (b : Batch α)
    (src : List (List (List α))) : List (Idx × α) :=
  (List.range (batchSize b)).flatMap (seqWrites layout b src)

/-- The paged cache: separate key and value buffers (the combined
5-D variant is resolved to this uniform view at the boundary, §9),
plus the page count of the backing store. -/
structure CacheState (α : Type) where
  max_num_pages : Nat
  k : Buffer α
  v : Buffer α

/-- Modelled from the spec: the successful scatter-append (§4.4):
write every appended key scalar into the key buffer and every value
scalar into the value buffer. -/
def applyAppend [Inhabited α] (layout : TensorLayout) (b : Batch α)
    (cache : CacheState α) : CacheState α :=
  { max_num_pages := cache.max_num_pages
    k := bulkWrite cache.k (allWrites layout b b.append_key)
    v := bulkWrite cache.v (allWrites layout b b.append_value) }

/-- Modelled from the spec: the full append operation
(`append_paged_kv_cache` wrapper from src plus the native kernel's
eager validation, §7): layout resolution first, then the
`MalformedIndex`, `CapacityExceeded` and `IndexOutOfRange` checks,
all before any destination write; on success the scatter runs.
Returns the call result together with the cache after the call. -/
def append_paged_kv_cache [Inhabited α] (b : Batch α) (cache : CacheState α)
    (kv_layout : String := "NHD") :
    Except AppendError Unit × CacheState α :=
  match checkKvLayout kv_layout with
  | Except.error e => (Except.error e, cache)
  | Except.ok layout =>
    if indptrOkB b.append_indptr (batchSize b) b.append_key.length = false then
      (Except.error AppendError.MalformedIndex, cache)
    else if indptrOkB b.kv_indptr (batchSize b) b.kv_indices.length = false then
      (Except.error AppendError.MalformedIndex, cache)
    else if capOkB b = false then
      (Except.error AppendError.CapacityExceeded, cache)
    else if idxOkB b = false then
      (Except.error AppendError.IndexOutOfRange, cache)
    else
      (Except.ok (), applyAppend layout b cache)

/-- The per-sequence slice of the physical-index image of the write
set, as a standalone function (used to decompose nodup proofs). -/
def seqIdxs [Inhabited α] (layout : TensorLayout) (b : Batch α)
    (src : List (List (List α))) (i : Nat) : List Idx :=
  (List.range (appendLenOf b i)).flatMap fun j =>
    (List.range (rowAt src (rowIdx b i j)).length).flatMap fun h =>
      (List.range ((rowAt src (rowIdx b i j)).getD h []).length).map fun d =>
        physIdx layout (physicalPage b i j) (inPageOffset b i j) h d

/-- The set of physical key-cache coordinates an append call may
write: empty when the layout token is rejected. -/
def touchedK [Inhabited α] (b : Batch α) (s : String) : List Idx :=
  match checkKvLayout s with
  | Except.error _ => []
  | Except.ok layout => (allWrites layout b b.append_key).map Prod.fst

/-- The set of physical value-cache coordinates an append call may
write: empty when the layout token is rejected. -/
def touchedV [Inhabited α] (b : Batch α) (s : String) : List Idx :=
  match checkKvLayout s with
  | Except.error _ => []
  | Except.ok layout => (allWrites layout b b.append_value).map Prod.fst

/-- A small concrete valid batch (2 sequences, page size 2, append
lengths 3 and 1, pages [5, 7] and [2], both sequences starting on
fresh pages) used to instantiate the theorems. -/
def cb : Batch Nat :=
  { page_size := 2
    append_key := [[[10]], [[11]], [[12]], [[13]]]
    append_value := [[[20]], [[21]], [[22]], [[23]]]
    append_indptr := [0, 3, 4]
    kv_indices := [5, 7, 2]
    kv_indptr := [0, 2, 3]
    kv_last_page_len := [1, 1] }

/-- A small concrete cache, all slots zero. -/
def cc : CacheState Nat :=
  { max_num_pages := 9, k := fun _ => 0, v := fun _ => 0 }

/-- A batch with a decreasing `append_indptr` (otherwise like `cb`). -/
def bb : Batch Nat :=
  { cb with append_indptr := [0, 3, 2] }

/-- A batch whose first sequence appends 4 rows into capacity 3. -/
def ob : Batch Nat :=
  { page_size := 2
    append_key := [[[1]], [[2]], [[3]], [[4]], [[5]]]
    append_value := [[[1]], [[2]], [[3]], [[4]], [[5]]]
    append_indptr := [0, 4, 5]
    kv_indices := [5, 7, 2]
    kv_indptr := [0, 2, 3]
    kv_last_page_len := [1, 1] }

/-! ### Properties of the boolean validation checks -/

theorem nondecB_iff_chain : ∀ l : List Nat, nondecB l = true ↔ l.Chain' (· ≤ ·)
  | [] => by simp [nondecB]
  | [a] => by simp [nondecB]
  | a :: b :: rest => by
    simp [nondecB, List.chain'_cons, nondecB_iff_chain (b :: rest)]

theorem nondecB_getD_le {l : List Nat} (hl : nondecB l = true) {i j : Nat}
    (hij : i ≤ j) (hj : j < l.length) : l.getD i 0 ≤ l.getD j 0 := by
  rcases Nat.eq_or_lt_of_le hij with rfl | hlt
  · exact le_refl _
  · have hp : l.Pairwise (· ≤ ·) :=
      List.chain'_iff_pairwise.mp ((nondecB_iff_chain l).mp hl)
    have hi : i < l.length := lt_of_le_of_lt hij hj
    rw [List.getD_eq_getElem l 0 hi, List.getD_eq_getElem l 0 hj]
    have := List.pairwise_iff_get.mp hp ⟨i, hi⟩ ⟨j, hj⟩ hlt
    simpa using this

theorem indptrOkB_parts {l : List Nat} {n total : Nat}
    (h : indptrOkB l n total = true) :
    l.length = n + 1 ∧ l.getD 0 0 = 0 ∧ nondecB l = true ∧ l.getD n 0 = total := by
  simpa [indptrOkB, Bool.and_eq_true, and_assoc] using h

/-! ### Page-table offset arithmetic -/

theorem kv_base_mono {b : Batch α}
    (hkv : indptrOkB b.kv_indptr (batchSize b) b.kv_indices.length = true)
    {i j : Nat} (hij : i ≤ j) (hj : j ≤ batchSize b) :
    b.kv_indptr.getD i 0 ≤ b.kv_indptr.getD j 0 := by
  obtain ⟨hlen, _, hnd, _⟩ := indptrOkB_parts hkv
  exact nondecB_getD_le hnd hij (by omega)

theorem kv_base_add_numPages {b : Batch α}
    (hkv : indptrOkB b.kv_indptr (batchSize b) b.kv_indices.length = true)
    {i : Nat} (hi : i < batchSize b) :
    b.kv_indptr.getD i 0 + numPagesOf b i = b.kv_indptr.getD (i + 1) 0 := by
  have := kv_base_mono hkv (show i ≤ i + 1 by omega) (by omega)
  unfold numPagesOf
  omega

theorem kv_base_last {b : Batch α}
    (hkv : indptrOkB b.kv_indptr (batchSize b) b.kv_indices.length = true) :
    b.kv_indptr.getD (batchSize b) 0 = b.kv_indices.length :=
  (indptrOkB_parts hkv).2.2.2

theorem posOf_lt_cap {b : Batch α} {i j : Nat}
    (hcap : appendLenOf b i ≤ capOf b i) (hj : j < appendLenOf b i) :
    posOf b i j < capOf b i := by
  unfold posOf startOf
  omega

theorem cap_le_mul {b : Batch α} {i : Nat} (hnp : 1 ≤ numPagesOf b i)
    (hlast : b.kv_last_page_len.getD i 0 ≤ b.page_size) :
    capOf b i ≤ numPagesOf b i * b.page_size := by
  have h1 : numPagesOf b i - 1 + 1 = numPagesOf b i := by omega
  calc capOf b i
      = (numPagesOf b i - 1) * b.page_size + b.kv_last_page_len.getD i 0 := rfl
    _ ≤ (numPagesOf b i - 1) * b.page_size + b.page_size := by omega
    _ = (numPagesOf b i - 1 + 1) * b.page_size := by ring
    _ = numPagesOf b i * b.page_size := by rw [h1]

theorem pageSlotIndex_lt {b : Batch α} {i j : Nat} (hps : 0 < b.page_size)
    (hnp : 1 ≤ numPagesOf b i)
    (hlast : b.kv_last_page_len.getD i 0 ≤ b.page_size)
    (hcap : appendLenOf b i ≤ capOf b i) (hj : j < appendLenOf b i) :
    pageSlotIndex b i j < numPagesOf b i := by
  have hpos : posOf b i j < capOf b i := posOf_lt_cap hcap hj
  have hmul : capOf b i ≤ numPagesOf b i * b.page_size := cap_le_mul hnp hlast
  unfold pageSlotIndex
  rw [Nat.div_lt_iff_lt_mul hps]
  omega

/-! ### Injectivity of the destination map on a valid batch -/

theorem pageSlot_in_kv_indices {b : Batch α}
    (hkv : indptrOkB b.kv_indptr (batchSize b) b.kv_indices.length = true)
    {i : Nat} (hi : i < batchSize b) {t : Nat}
    (ht : t < numPagesOf b i) :
    b.kv_indptr.getD i 0 + t < b.kv_indices.length := by
  have h1 := kv_base_add_numPages hkv hi
  have h2 : b.kv_indptr.getD (i + 1) 0 ≤ b.kv_indptr.getD (batchSize b) 0 :=
    kv_base_mono hkv (by omega) (le_refl _)
  have h3 := kv_base_last hkv
  omega

theorem destOf_inj {b : Batch α} (hv : ValidBatch b) {i j i' j' : Nat}
    (hi : i < batchSize b) (hj : j < appendLenOf b i)
    (hi' : i' < batchSize b) (hj' : j' < appendLenOf b i')
    (heq : destOf b i j = destOf b i' j') : i = i' ∧ j = j' := by
  obtain ⟨hps, hap, hkv, hval, hnp, hcap, hlast, hnd⟩ := hv
  have hs1 : pageSlotIndex b i j < numPagesOf b i :=
    pageSlotIndex_lt hps (hnp i hi) (hlast i hi) (hcap i hi) hj
  have hs2 : pageSlotIndex b i' j' < numPagesOf b i' :=
    pageSlotIndex_lt hps (hnp i' hi') (hlast i' hi') (hcap i' hi') hj'
  have ht1 : b.kv_indptr.getD i 0 + pageSlotIndex b i j < b.kv_indices.length :=
    pageSlot_in_kv_indices hkv hi hs1
  have ht2 : b.kv_indptr.getD i' 0 + pageSlotIndex b i' j' < b.kv_indices.length :=
    pageSlot_in_kv_indices hkv hi' hs2
  have hpage : physicalPage b i j = physicalPage b i' j' := congrArg Prod.fst heq
  have hoff : inPageOffset b i j = inPageOffset b i' j' := congrArg Prod.snd heq
  unfold physicalPage at hpage
  rw [List.getD_eq_getElem _ 0 ht1, List.getD_eq_getElem _ 0 ht2] at hpage
  have hget : b.kv_indices.get ⟨_, ht1⟩ = b.kv_indices.get ⟨_, ht2⟩ := by
    simpa using hpage
  have hteq : b.kv_indptr.getD i 0 + pageSlotIndex b i j
      = b.kv_indptr.getD i' 0 + pageSlotIndex b i' j' := by
    have := (List.Nodup.get_inj_iff hnd).mp hget
    simpa using congrArg Fin.val this
  have hii : i = i' := by
    by_contra hne
    rcases Nat.lt_or_ge i i' with hlt | hge
    · have hb1 := kv_base_add_numPages hkv hi
      have hb2 : b.kv_indptr.getD (i + 1) 0 ≤ b.kv_indptr.getD i' 0 :=
        kv_base_mono hkv (by omega) (by omega)
      omega
    · have hlt' : i' < i := by omega
      have hb1 := kv_base_add_numPages hkv hi'
      have hb2 : b.kv_indptr.getD (i' + 1) 0 ≤ b.kv_indptr.getD i 0 :=
        kv_base_mono hkv (by omega) (by omega)
      omega
  subst hii
  have hslot : pageSlotIndex b i j = pageSlotIndex b i j' := by omega
  have hd1 := Nat.div_add_mod (posOf b i j) b.page_size
  have hd2 := Nat.div_add_mod (posOf b i j') b.page_size
  have hposeq : posOf b i j = posOf b i j' := by
    unfold pageSlotIndex at hslot
    unfold inPageOffset at hoff
    rw [hslot, hoff] at hd1
    omega
  refine ⟨rfl, ?_⟩
  unfold posOf at hposeq
  omega

/-! ### Nodup of the destination set -/

theorem nodup_flatMap_range {β : Type} {n : Nat} {f : Nat → List β}
    (h1 : ∀ i, i < n → (f i).Nodup)
    (h2 : ∀ i i' x, i < n → i' < n → x ∈ f i → x ∈ f i' → i = i') :
    ((List.range n).flatMap f).Nodup := by
  rw [List.nodup_flatMap]
  refine ⟨fun x hx => h1 x (List.mem_range.mp hx), ?_⟩
  refine (List.pairwise_lt_range n).imp_of_mem ?_
  intro a c ha hc hlt x hxa hxc
  exact absurd (h2 _ _ x (List.mem_range.mp ha) (List.mem_range.mp hc) hxa hxc)
    (Nat.ne_of_lt hlt)

theorem batchDests_nodup {b : Batch α} (hv : ValidBatch b) :
    (batchDests b).Nodup := by
  unfold batchDests
  apply nodup_flatMap_range
  · intro i hi
    unfold seqDests
    refine (List.nodup_range _).map_on ?_
    intro j hj j' hj' hjj
    exact (destOf_inj hv hi (List.mem_range.mp hj) hi (List.mem_range.mp hj') hjj).2
  · intro i i' x hi hi' hx hx'
    unfold seqDests at hx hx'
    obtain ⟨j, hj, rfl⟩ := List.mem_map.mp hx
    obtain ⟨j', hj', he⟩ := List.mem_map.mp hx'
    exact (destOf_inj hv hi (List.mem_range.mp hj) hi'
      (List.mem_range.mp hj') he.symm).1

/-! ### Reading through bulk writes -/

theorem bulkWrite_not_mem :
    ∀ (ws : List (Idx × α)) (buf : Buffer α) (idx : Idx),
      idx ∉ ws.map Prod.fst → bulkWrite buf ws idx = buf idx
  | [], _, _, _ => rfl
  | w :: ws, buf, idx, h => by
    have h1 : idx ∉ ws.map Prod.fst := fun hm => h (by simp [hm])
    have h2 : idx ≠ w.1 := fun he => h (by simp [he])
    show bulkWrite (bufWrite buf w.1 w.2) ws idx = buf idx
    rw [bulkWrite_not_mem ws _ idx h1]
    simp [bufWrite, h2]

theorem bulkWrite_mem :
    ∀ (ws : List (Idx × α)) (buf : Buffer α) (idx : Idx) (v : α),
      (ws.map Prod.fst).Nodup → (idx, v) ∈ ws → bulkWrite buf ws idx = v
  | [], _, _, _, _, hm => absurd hm (List.not_mem_nil _)
  | w :: ws, buf, idx, v, hnd, hm => by
    rw [List.map_cons, List.nodup_cons] at hnd
    rcases List.mem_cons.mp hm with he | hm'
    · have hnotin : idx ∉ ws.map Prod.fst := by
        rw [← he] at hnd
        exact hnd.1
      show bulkWrite (bufWrite buf w.1 w.2) ws idx = v
      rw [bulkWrite_not_mem ws _ idx hnotin, ← he]
      simp [bufWrite]
    · exact bulkWrite_mem ws _ idx v hnd.2 hm'

theorem physIdx_inj {layout : TensorLayout} {p s h d p' s' h' d' : Nat}
    (he : physIdx layout p s h d = physIdx layout p' s' h' d') :
    p = p' ∧ s = s' ∧ h = h' ∧ d = d' := by
  cases layout <;> simp [physIdx, Prod.ext_iff] at he <;> tauto

/-! ### The write set of the scatter-append -/

theorem allWrites_fst_eq [Inhabited α] (layout : TensorLayout) (b : Batch α)
    (src : List (List (List α))) :
    (allWrites layout b src).map Prod.fst =
      (List.range (batchSize b)).flatMap fun i =>
        (List.range (appendLenOf b i)).flatMap fun j =>
          (List.range (rowAt src (rowIdx b i j)).length).flatMap fun h =>
            (List.range ((rowAt src (rowIdx b i j)).getD h []).length).map fun d =>
              physIdx layout (physicalPage b i j) (inPageOffset b i j) h d := by
  unfold allWrites seqWrites
  simp [List.map_flatMap, List.map_map, Function.comp_def]

theorem mem_allWrites [Inhabited α] {layout : TensorLayout} {b : Batch α}
    {src : List (List (List α))} {i j h d : Nat}
    (hi : i < batchSize b) (hj : j < appendLenOf b i)
    (hh : h < (rowAt src (rowIdx b i j)).length)
    (hd : d < ((rowAt src (rowIdx b i j)).getD h []).length) :
    (physIdx layout (physicalPage b i j) (inPageOffset b i j) h d,
      entryAt src (rowIdx b i j) h d) ∈ allWrites layout b src := by
  unfold allWrites seqWrites
  simp only [List.mem_flatMap, List.mem_map, List.mem_range]
  exact ⟨i, hi, j, hj, h, hh, d, hd, rfl⟩

theorem mem_allWrites_fst [Inhabited α] {layout : TensorLayout} {b : Batch α}
    {src : List (List (List α))} {idx : Idx} :
    idx ∈ (allWrites layout b src).map Prod.fst ↔
      ∃ i j h d, i < batchSize b ∧ j < appendLenOf b i ∧
        h < (rowAt src (rowIdx b i j)).length ∧
        d < ((rowAt src (rowIdx b i j)).getD h []).length ∧
        idx = physIdx layout (physicalPage b i j) (inPageOffset b i j) h d := by
  rw [allWrites_fst_eq]
  simp only [List.mem_flatMap, List.mem_map, List.mem_range]
  constructor
  · rintro ⟨i, hi, j, hj, h, hh, d, hd, rfl⟩
    exact ⟨i, j, h, d, hi, hj, hh, hd, rfl⟩
  · rintro ⟨i, j, h, d, hi, hj, hh, hd, rfl⟩
    exact ⟨i, hi, j, hj, h, hh, d, hd, rfl⟩

theorem mem_seqIdxs [Inhabited α] {layout : TensorLayout} {b : Batch α}
    {src : List (List (List α))} {i : Nat} {x : Idx} :
    x ∈ seqIdxs layout b src i ↔
      ∃ j h d, j < appendLenOf b i ∧ h < (rowAt src (rowIdx b i j)).length ∧
        d < ((rowAt src (rowIdx b i j)).getD h []).length ∧
        x = physIdx layout (physicalPage b i j) (inPageOffset b i j) h d := by
  unfold seqIdxs
  simp only [List.mem_flatMap, List.mem_map, List.mem_range]
  constructor
  · rintro ⟨j, hj, h, hh, d, hd, rfl⟩
    exact ⟨j, h, d, hj, hh, hd, rfl⟩
  · rintro ⟨j, h, d, hj, hh, hd, rfl⟩
    exact ⟨j, hj, h, hh, d, hd, rfl⟩

theorem allWrites_fst_eq_seqIdxs [Inhabited α] (layout : TensorLayout)
    (b : Batch α) (src : List (List (List α))) :
    (allWrites layout b src).map Prod.fst =
      (List.range (batchSize b)).flatMap (seqIdxs layout b src) := by
  rw [allWrites_fst_eq]
  rfl

theorem allWrites_fst_nodup [Inhabited α] {b : Batch α} (hv : ValidBatch b)
    (layout : TensorLayout) (src : List (List (List α))) :
    ((allWrites layout b src).map Prod.fst).Nodup := by
  rw [allWrites_fst_eq_seqIdxs]
  apply nodup_flatMap_range
  · intro i hi
    unfold seqIdxs
    apply nodup_flatMap_range
    · intro j hj
      apply nodup_flatMap_range
      · intro h hh
        refine (List.nodup_range _).map_on ?_
        intro d _ d' _ he
        exact (physIdx_inj he).2.2.2
      · intro h h' x hh hh' hx hx'
        obtain ⟨d, hd, rfl⟩ := List.mem_map.mp hx
        obtain ⟨d', hd', he⟩ := List.mem_map.mp hx'
        exact (physIdx_inj he.symm).2.2.1
    · intro j j' x hj hj' hx hx'
      obtain ⟨h, hh, d, hd, rfl⟩ := by
        simpa only [List.mem_flatMap, List.mem_map, List.mem_range] using hx
      obtain ⟨h', hh', d', hd', he⟩ := by
        simpa only [List.mem_flatMap, List.mem_map, List.mem_range] using hx'
      obtain ⟨hp, hof, _, _⟩ := physIdx_inj he.symm
      have hdd : destOf b i j = destOf b i j' := by
        unfold destOf
        rw [hp, hof]
      exact (destOf_inj hv hi hj hi hj' hdd).2
  · intro i i' x hi hi' hx hx'
    obtain ⟨j, h, d, hj, hh, hd, rfl⟩ := mem_seqIdxs.mp hx
    obtain ⟨j', h', d', hj', hh', hd', he⟩ := mem_seqIdxs.mp hx'
    obtain ⟨hp, hof, _, _⟩ := physIdx_inj he.symm
    have hdd : destOf b i j = destOf b i' j' := by
      unfold destOf
      rw [hp, hof]
    exact (destOf_inj hv hi hj hi' hj' hdd).1

/-! ### Validation on a valid batch and reduction of the operation -/

theorem validBatch_capOkB {b : Batch α} (hv : ValidBatch b) : capOkB b = true := by
  unfold capOkB
  rw [List.all_eq_true]
  intro i hi
  exact decide_eq_true (hv.2.2.2.2.2.1 i (List.mem_range.mp hi))

theorem validBatch_idxOkB {b : Batch α} (hv : ValidBatch b) : idxOkB b = true := by
  obtain ⟨hps, hap, hkv, hval, hnp, hcap, hlast, hnd⟩ := hv
  unfold idxOkB
  rw [List.all_eq_true]
  intro i hi
  rw [List.all_eq_true]
  intro j hj
  have hi' := List.mem_range.mp hi
  exact decide_eq_true
    (pageSlotIndex_lt hps (hnp i hi') (hlast i hi') (hcap i hi')
      (List.mem_range.mp hj))

theorem append_ok [Inhabited α] {b : Batch α} (cache : CacheState α)
    {s : String} {layout : TensorLayout}
    (hs : checkKvLayout s = Except.ok layout) (hv : ValidBatch b) :
    append_paged_kv_cache b cache s = (Except.ok (), applyAppend layout b cache) := by
  unfold append_paged_kv_cache
  rw [hs, hv.2.1, hv.2.2.1, validBatch_capOkB hv, validBatch_idxOkB hv]
  simp

/-! ### Layout equivalence of one buffer -/

theorem physIdx_touched [Inhabited α] {layout : TensorLayout} {b : Batch α}
    {src : List (List (List α))} {p s h d : Nat} :
    physIdx layout p s h d ∈ (allWrites layout b src).map Prod.fst ↔
      ∃ i j, i < batchSize b ∧ j < appendLenOf b i ∧
        p = physicalPage b i j ∧ s = inPageOffset b i j ∧
        h < (rowAt src (rowIdx b i j)).length ∧
        d < ((rowAt src (rowIdx b i j)).getD h []).length := by
  rw [mem_allWrites_fst]
  constructor
  · rintro ⟨i, j, h2, d2, hi, hj, hh, hd, he⟩
    obtain ⟨hp, hof, hhh, hdd⟩ := physIdx_inj he
    subst hhh
    subst hdd
    exact ⟨i, j, hi, hj, hp, hof, hh, hd⟩
  · rintro ⟨i, j, hi, hj, hp, hof, hh, hd⟩
    exact ⟨i, j, h, d, hi, hj, hh, hd, by rw [hp, hof]⟩

theorem layout_equiv_buffer [Inhabited α] {b : Batch α} (hv : ValidBatch b)
    (src : List (List (List α))) (buf1 buf2 : Buffer α)
    (hinit : ∀ p s h d : Nat,
      readLogical TensorLayout.NHD buf1 p s h d =
        readLogical TensorLayout.HND buf2 p s h d)
    (p s h d : Nat) :
    readLogical TensorLayout.NHD
        (bulkWrite buf1 (allWrites TensorLayout.NHD b src)) p s h d =
      readLogical TensorLayout.HND
        (bulkWrite buf2 (allWrites TensorLayout.HND b src)) p s h d := by
  by_cases htouch : ∃ i j, i < batchSize b ∧ j < appendLenOf b i ∧
      p = physicalPage b i j ∧ s = inPageOffset b i j ∧
      h < (rowAt src (rowIdx b i j)).length ∧
      d < ((rowAt src (rowIdx b i j)).getD h []).length
  · obtain ⟨i, j, hi, hj, hp, hof, hh, hd⟩ := htouch
    subst hp
    subst hof
    unfold readLogical
    rw [bulkWrite_mem _ _ _ _ (allWrites_fst_nodup hv TensorLayout.NHD src)
      (mem_allWrites hi hj hh hd)]
    rw [bulkWrite_mem _ _ _ _ (allWrites_fst_nodup hv TensorLayout.HND src)
      (mem_allWrites hi hj hh hd)]
  · unfold readLogical
    rw [bulkWrite_not_mem _ _ _ (fun hm => htouch (physIdx_touched.mp hm))]
    rw [bulkWrite_not_mem _ _ _ (fun hm => htouch (physIdx_touched.mp hm))]
    exact hinit p s h d

/-! ### The claims -/

/-- C1: for every valid batch and every sequence `i`, the append
operation writes local appended row `j` (every scalar of it, for every
`j < append_len_i`) to physical page
`kv_indices[kv_indptr[i] + (start_i + j) / page_size]` at in-page slot
`(start_i + j) mod page_size` with `start_i = cap_i - append_len_i`;
in particular when `append_len_i = cap_i` for every `i`, row `j` lands
in page-slot `(kv_indices[kv_indptr[i] + j / page_size], j mod page_size)`. -/
theorem claim_C1 [Inhabited α] {b : Batch α} (hv : ValidBatch b) {i j : Nat}
    (hi : i < batchSize b) (hj : j < appendLenOf b i) :
    destOf b i j =
      (b.kv_indices.getD
        (b.kv_indptr.getD i 0 +
          (capOf b i - appendLenOf b i + j) / b.page_size) 0,
       (capOf b i - appendLenOf b i + j) % b.page_size) ∧
    (∀ layout : TensorLayout, ∀ h d : Nat,
      h < (rowAt b.append_key (rowIdx b i j)).length →
      d < ((rowAt b.append_key (rowIdx b i j)).getD h []).length →
      (physIdx layout (physicalPage b i j) (inPageOffset b i j) h d,
        entryAt b.append_key (rowIdx b i j) h d) ∈
          allWrites layout b b.append_key) ∧
    ((∀ t, t < batchSize b → appendLenOf b t = capOf b t) →
      destOf b i j =
        (b.kv_indices.getD (b.kv_indptr.getD i 0 + j / b.page_size) 0,
         j % b.page_size)) := by
  refine ⟨rfl, fun layout h d hh hd => mem_allWrites hi hj hh hd, fun hfull => ?_⟩
  have h0 : startOf b i = 0 := by
    unfold startOf
    rw [hfull i hi]
    omega
  unfold destOf physicalPage inPageOffset pageSlotIndex posOf
  rw [h0, Nat.zero_add]

theorem claim_C1_witness : destOf cb 0 2 = (7, 0) := by
  have h := @claim_C1 Nat _ cb (by decide) 0 2 (by decide) (by decide)
  exact h.1.trans (by decide)

/-- C2: for every valid batch, the list of
`(physical_page, in_page_offset)` destination pairs computed across
all sequences and all appended rows contains no duplicate pair. -/
theorem claim_C2 {b : Batch α} (hv : ValidBatch b) : (batchDests b).Nodup :=
  batchDests_nodup hv

theorem claim_C2_witness : ValidBatch cb ∧ (batchDests cb).Nodup :=
  ⟨by decide, claim_C2 (by decide)⟩

/-- C4: for every input batch, if the layout token is neither `NHD`
nor `HND` the append operation fails with `InvalidLayout`, and the
cache after the call equals the cache before it (the check precedes
every cache access). -/
theorem claim_C4 [Inhabited α] (b : Batch α) (cache : CacheState α) (s : String)
    (h1 : s ≠ "NHD") (h2 : s ≠ "HND") :
    append_paged_kv_cache b cache s =
      (Except.error AppendError.InvalidLayout, cache) := by
  unfold append_paged_kv_cache checkKvLayout
  simp [h1, h2]

theorem claim_C4_witness :
    append_paged_kv_cache cb cc "XYZ" =
      (Except.error AppendError.InvalidLayout, cc) :=
  claim_C4 cb cc "XYZ" (by decide) (by decide)

/-- C7: for every batch that passes the capacity check (with the §3
data-model facts: positive page size, at least one page per sequence,
last-page occupancy within the page), every computed
`page_slot_index` is below `num_pages_i`, so the defensive
`IndexOutOfRange` check of the Cache Addressing Unit passes. -/
theorem claim_C7 (b : Batch α) (hps : 0 < b.page_size)
    (hnp : ∀ i, i < batchSize b → 1 ≤ numPagesOf b i)
    (hlast : ∀ i, i < batchSize b → b.kv_last_page_len.getD i 0 ≤ b.page_size)
    (hcap : ∀ i, i < batchSize b → appendLenOf b i ≤ capOf b i) :
    (∀ i, i < batchSize b → ∀ j, j < appendLenOf b i →
      pageSlotIndex b i j < numPagesOf b i) ∧ idxOkB b = true := by
  constructor
  · intro i hi j hj
    exact pageSlotIndex_lt hps (hnp i hi) (hlast i hi) (hcap i hi) hj
  · unfold idxOkB
    rw [List.all_eq_true]
    intro i hi
    rw [List.all_eq_true]
    intro j hj
    have hi' := List.mem_range.mp hi
    exact decide_eq_true
      (pageSlotIndex_lt hps (hnp i hi') (hlast i hi') (hcap i hi')
        (List.mem_range.mp hj))

theorem claim_C7_witness :
    (∀ i, i < batchSize cb → ∀ j, j < appendLenOf cb i →
      pageSlotIndex cb i j < numPagesOf cb i) ∧ idxOkB cb = true :=
  claim_C7 cb (by decide) (by decide) (by decide) (by decide)

/-- C10: when the `kv_layout` argument is omitted it defaults to
`"NHD"`: for every batch and cache, the call without a layout
argument is the call with `kv_layout = "NHD"`. -/
theorem claim_C10 [Inhabited α] (b : Batch α) (cache : CacheState α) :
    append_paged_kv_cache b cache = append_paged_kv_cache b cache "NHD" := rfl

/-- C3: for every valid batch, after a successful append, reading the
key cache and the value cache through the resolved layout at every
computed destination address yields exactly the corresponding source
scalars of `append_key` and `append_value`. -/
theorem claim_C3 [Inhabited α] {b : Batch α} (hv : ValidBatch b)
    (cache : CacheState α) {s : String} {layout : TensorLayout}
    (hs : checkKvLayout s = Except.ok layout) {i j : Nat}
    (hi : i < batchSize b) (hj : j < appendLenOf b i) :
    (∀ h d : Nat, h < (rowAt b.append_key (rowIdx b i j)).length →
      d < ((rowAt b.append_key (rowIdx b i j)).getD h []).length →
      readLogical layout (append_paged_kv_cache b cache s).2.k
          (physicalPage b i j) (inPageOffset b i j) h d =
        entryAt b.append_key (rowIdx b i j) h d) ∧
    (∀ h d : Nat, h < (rowAt b.append_value (rowIdx b i j)).length →
      d < ((rowAt b.append_value (rowIdx b i j)).getD h []).length →
      readLogical layout (append_paged_kv_cache b cache s).2.v
          (physicalPage b i j) (inPageOffset b i j) h d =
        entryAt b.append_value (rowIdx b i j) h d) := by
  rw [append_ok cache hs hv]
  constructor
  · intro h d hh hd
    exact bulkWrite_mem _ _ _ _ (allWrites_fst_nodup hv layout _)
      (mem_allWrites hi hj hh hd)
  · intro h d hh hd
    exact bulkWrite_mem _ _ _ _ (allWrites_fst_nodup hv layout _)
      (mem_allWrites hi hj hh hd)

theorem claim_C3_witness :
    readLogical TensorLayout.NHD (append_paged_kv_cache cb cc "NHD").2.k
        (physicalPage cb 0 2) (inPageOffset cb 0 2) 0 0 =
      entryAt cb.append_key (rowIdx cb 0 2) 0 0 ∧
    readLogical TensorLayout.NHD (append_paged_kv_cache cb cc "NHD").2.v
        (physicalPage cb 0 2) (inPageOffset cb 0 2) 0 0 =
      entryAt cb.append_value (rowIdx cb 0 2) 0 0 := by
  have h := @claim_C3 Nat _ cb (by decide) cc "NHD" TensorLayout.NHD rfl 0 2
    (by decide) (by decide)
  exact ⟨h.1 0 0 (by decide) (by decide), h.2 0 0 (by decide) (by decide)⟩

/-- C5: for every input batch (under a recognized layout token) in
which `append_indptr` or `kv_indptr` is not non-decreasing, or does
not start at 0, or whose last element does not equal the paired data
length, the call is rejected with `MalformedIndex` and the cache
after the call equals the cache before it. -/
theorem claim_C5 [Inhabited α] (b : Batch α) (cache : CacheState α)
    {s : String} {layout : TensorLayout}
    (hs : checkKvLayout s = Except.ok layout)
    (hbad : nondecB b.append_indptr = false ∨
      b.append_indptr.getD 0 0 ≠ 0 ∨
      b.append_indptr.getD (batchSize b) 0 ≠ b.append_key.length ∨
      nondecB b.kv_indptr = false ∨
      b.kv_indptr.getD 0 0 ≠ 0 ∨
      b.kv_indptr.getD (batchSize b) 0 ≠ b.kv_indices.length) :
    append_paged_kv_cache b cache s =
      (Except.error AppendError.MalformedIndex, cache) := by
  unfold append_paged_kv_cache
  rw [hs]
  rcases Bool.eq_false_or_eq_true
    (indptrOkB b.append_indptr (batchSize b) b.append_key.length) with hA | hA
  · obtain ⟨_, hz, hn, hl⟩ := indptrOkB_parts hA
    rcases Bool.eq_false_or_eq_true
      (indptrOkB b.kv_indptr (batchSize b) b.kv_indices.length) with hK | hK
    · exfalso
      obtain ⟨_, hz2, hn2, hl2⟩ := indptrOkB_parts hK
      rcases hbad with h | h | h | h | h | h
      · rw [hn] at h
        cases h
      · exact h hz
      · exact h hl
      · rw [hn2] at h
        cases h
      · exact h hz2
      · exact h hl2
    · simp [hA, hK]
  · simp [hA]

theorem claim_C5_witness :
    append_paged_kv_cache bb cc "NHD" =
      (Except.error AppendError.MalformedIndex, cc) :=
  @claim_C5 Nat _ bb cc "NHD" TensorLayout.NHD rfl (Or.inl (by decide))

/-- C6: for every input batch (with a recognized layout and
well-formed indptr arrays) in which `append_len_i > cap_i` for some
sequence `i`, the append operation fails with `CapacityExceeded` and
the cache after the call equals the cache before it: validation is
eager, no destination write happens. -/
theorem claim_C6 [Inhabited α] (b : Batch α) (cache : CacheState α)
    {s : String} {layout : TensorLayout}
    (hs : checkKvLayout s = Except.ok layout)
    (hA : indptrOkB b.append_indptr (batchSize b) b.append_key.length = true)
    (hK : indptrOkB b.kv_indptr (batchSize b) b.kv_indices.length = true)
    (i : Nat) (hi : i < batchSize b) (hover : capOf b i < appendLenOf b i) :
    append_paged_kv_cache b cache s =
      (Except.error AppendError.CapacityExceeded, cache) := by
  have hcap : capOkB b = false := by
    rcases Bool.eq_false_or_eq_true (capOkB b) with hc | hc
    · exfalso
      unfold capOkB at hc
      rw [List.all_eq_true] at hc
      have := of_decide_eq_true (hc i (List.mem_range.mpr hi))
      omega
    · exact hc
  unfold append_paged_kv_cache
  rw [hs]
  simp [hA, hK, hcap]

theorem claim_C6_witness :
    append_paged_kv_cache ob cc "NHD" =
      (Except.error AppendError.CapacityExceeded, cc) :=
  @claim_C6 Nat _ ob cc "NHD" TensorLayout.NHD rfl (by decide) (by decide) 0
    (by decide) (by decide)

/-- C8: for every valid batch, appending the same logical rows under
layout `NHD` into one cache and under layout `HND` into another,
starting from caches with identical logical content, then reading
each cache back through its matching layout convention, yields
identical logical values at every (page, slot, head, dim). -/
theorem claim_C8 [Inhabited α] {b : Batch α} (hv : ValidBatch b)
    (c1 c2 : CacheState α)
    (hk : ∀ p s h d : Nat, readLogical TensorLayout.NHD c1.k p s h d =
      readLogical TensorLayout.HND c2.k p s h d)
    (hw : ∀ p s h d : Nat, readLogical TensorLayout.NHD c1.v p s h d =
      readLogical TensorLayout.HND c2.v p s h d)
    (p s h d : Nat) :
    readLogical TensorLayout.NHD (append_paged_kv_cache b c1 "NHD").2.k p s h d =
      readLogical TensorLayout.HND (append_paged_kv_cache b c2 "HND").2.k p s h d ∧
    readLogical TensorLayout.NHD (append_paged_kv_cache b c1 "NHD").2.v p s h d =
      readLogical TensorLayout.HND (append_paged_kv_cache b c2 "HND").2.v p s h d := by
  have e1 : checkKvLayout "NHD" = Except.ok TensorLayout.NHD := rfl
  have e2 : checkKvLayout "HND" = Except.ok TensorLayout.HND := rfl
  rw [append_ok c1 e1 hv, append_ok c2 e2 hv]
  exact ⟨layout_equiv_buffer hv b.append_key c1.k c2.k hk p s h d,
    layout_equiv_buffer hv b.append_value c1.v c2.v hw p s h d⟩

theorem claim_C8_witness :
    readLogical TensorLayout.NHD (append_paged_kv_cache cb cc "NHD").2.k 7 0 0 0 =
      readLogical TensorLayout.HND (append_paged_kv_cache cb cc "HND").2.k 7 0 0 0 ∧
    readLogical TensorLayout.NHD (append_paged_kv_cache cb cc "NHD").2.v 7 0 0 0 =
      readLogical TensorLayout.HND (append_paged_kv_cache cb cc "HND").2.v 7 0 0 0 :=
  claim_C8 (by decide) cc cc (fun _ _ _ _ => rfl) (fun _ _ _ _ => rfl) 7 0 0 0

/-- C9: for every call, only the key and value buffers are mutated
and only at computed destination coordinates: the page count of the
backing store is unchanged (the cache is never grown), and every
coordinate outside the write set reads back its old content; the
batch and page-table inputs are values the call never returns
modified. -/
theorem claim_C9 [Inhabited α] (b : Batch α) (cache : CacheState α) (s : String) :
    (append_paged_kv_cache b cache s).2.max_num_pages = cache.max_num_pages ∧
    (∀ idx : Idx, idx ∉ touchedK b s →
      (append_paged_kv_cache b cache s).2.k idx = cache.k idx) ∧
    (∀ idx : Idx, idx ∉ touchedV b s →
      (append_paged_kv_cache b cache s).2.v idx = cache.v idx) := by
  unfold append_paged_kv_cache touchedK touchedV
  cases hc : checkKvLayout s with
  | error e => exact ⟨rfl, fun idx _ => rfl, fun idx _ => rfl⟩
  | ok layout =>
    split_ifs with h1 h2 h3 h4
    · exact ⟨rfl, fun idx _ => rfl, fun idx _ => rfl⟩
    · exact ⟨rfl, fun idx _ => rfl, fun idx _ => rfl⟩
    · exact ⟨rfl, fun idx _ => rfl, fun idx _ => rfl⟩
    · exact ⟨rfl, fun idx _ => rfl, fun idx _ => rfl⟩
    · exact ⟨rfl, fun idx hidx => bulkWrite_not_mem _ _ _ hidx,
        fun idx hidx => bulkWrite_not_mem _ _ _ hidx⟩

theorem claim_C9_witness :
    (append_paged_kv_cache cb cc "NHD").2.max_num_pages = cc.max_num_pages ∧
    (append_paged_kv_cache cb cc "NHD").2.k (0, 0, 0, 0) = cc.k (0, 0, 0, 0) ∧
    (append_paged_kv_cache cb cc "NHD").2.v (0, 0, 0, 0) = cc.v (0, 0, 0, 0) := by
  have h := claim_C9 cb cc "NHD"
  exact ⟨h.1, h.2.1 (0, 0, 0, 0) (by decide), h.2.2 (0, 0, 0, 0) (by decide)⟩

end FlashInfer
